import Mathlib

/-!
Shallow embedding of `src/probe.py`, an offline tool that mines version-control
tag history, compiles synthetic layout probes against historical source trees,
and decodes `objdump` section dumps into `uint32` layout facts.

External effects (`git`, the filesystem, the cross compiler, `objdump`) are
modelled as explicit oracle arguments or environment records; every pure
computation is translated directly from the Python source.
-/

namespace Probe

/-! ## Tag parsing (`tag_pattern`, `try_parse_tag`, `is_relevant_tag`) -/

/-- Value of a decimal digit character, as `int(c)` computes it on a
`\d`-matched character. -/
def digitVal (c : Char) : Nat := c.toNat - 48

/-- Tail of `try_parse_tag` after the literal `android-` has been consumed:
models the regex alternation `((\d)\.(\d))|(q)-` of `tag_pattern` anchored at
that point.  The first alternative needs a digit, a dot and a digit; the
second needs the codename `q` followed by `-`, and yields the synthetic
version `(10, 0)` exactly as the Python code does when `m.group(3)` is None. -/
def parseAfterDash : List Char → Option (Nat × Nat)
  | a :: b :: rest =>
    if a.isDigit then
      match b, rest with
      | '.', c :: _ => if c.isDigit then some (digitVal a, digitVal c) else none
      | _, _ => none
    else if a == 'q' && b == '-' then some (10, 0)
    else none
  | _ => none

/-- `try_parse_tag` from `src/probe.py`: match
`^android-(((\d)\.(\d))|(q)-)` against the tag name and return
`(major, minor)`. -/
def try_parse_tag (name : String) : Option (Nat × Nat) :=
  match name.toList with
  | 'a' :: 'n' :: 'd' :: 'r' :: 'o' :: 'i' :: 'd' :: '-' :: rest => parseAfterDash rest
  | _ => none

/-- `is_relevant_tag` from `src/probe.py`: the tag name parses and the major
version is at least 5. -/
def is_relevant_tag (name : String) : Bool :=
  match try_parse_tag name with
  | none => false
  | some (major, _) => if 5 ≤ major then true else false

/-- Sample release tag (major 5), used in concrete scenarios. -/
def tagV1 : String := "android-5.0.0_r1"

/-- Sample release tag (major 6), used in concrete scenarios. -/
def tagV2 : String := "android-6.0.0_r1"

/-- Sample release tag (major 7), used in concrete scenarios. -/
def tagV3 : String := "android-7.0.0_r1"

/-! ## `compute_tags_affecting_path` and `compute_tags_affecting`

`git tag --sort=committerdate` and `git diff prev tag -- path` are external
collaborators: they are modelled as the oracle inputs `gitTags` (the
committer-date-ordered tag listing, already split into lines) and
`diff prev tag path` (the stripped standard output of the diff command). -/

/-- The `else` arm of the loop in `compute_tags_affecting_path`: every tag
after the first eligible one is kept exactly when the path-scoped diff
against the immediately preceding eligible tag is non-empty.  `prev` is the
`previous_tag` variable, updated on every iteration. -/
def walkDiffs (diff : String → String → String → String) (path : String) :
    String → List String → List String
  | _, [] => []
  | prev, t :: rest =>
    if 0 < (diff prev t path).length then t :: walkDiffs diff path t rest
    else walkDiffs diff path t rest

/-- `compute_tags_affecting_path` from `src/probe.py`: filter the tag listing
to eligible tags, always keep the first, and keep each later tag when the
diff against its predecessor touches `path`. -/
def compute_tags_affecting_path (gitTags : List String)
    (diff : String → String → String → String) (path : String) : List String :=
  match gitTags.filter is_relevant_tag with
  | [] => []
  | first :: rest => first :: walkDiffs diff path first rest

/-- Worker for first-occurrence de-duplication: `seen` collects the keys
already emitted. -/
def dedupFirstAux (seen : List String) : List String → List String
  | [] => []
  | t :: rest =>
    if t ∈ seen then dedupFirstAux seen rest
    else t :: dedupFirstAux (t :: seen) rest

/-- Order-preserving de-duplication keeping first occurrences, the behaviour
of `list(dict.fromkeys(tags).keys())` in `compute_tags_affecting`. -/
def dedupFirst (l : List String) : List String := dedupFirstAux [] l

/-- `compute_tags_affecting` from `src/probe.py`: concatenate the per-path
results in argument order and de-duplicate keeping first occurrences. -/
def compute_tags_affecting (gitTags : List String)
    (diff : String → String → String → String) (paths : List String) : List String :=
  dedupFirst ((paths.map (compute_tags_affecting_path gitTags diff)).flatten)

/-- Index of a string in a list (first occurrence; length of the list if
absent).  Used to express "ordered by commit time": `gitTags` is sorted by
committer date, so commit-time order of tags is order of their indices. -/
def idxIn : List String → String → Nat
  | [], _ => 0
  | t :: rest, x => if t = x then 0 else idxIn rest x + 1

/-- A list of tags is strictly ordered by commit time when the positions of
its elements in the committer-date-ordered base list are strictly
increasing. -/
abbrev StrictOrderedIn (base l : List String) : Prop :=
  l.Pairwise fun a b => idxIn base a < idxIn base b

/-! ## BinaryExtractor: `section_data_pattern` and
`parse_objdump_section_as_uint32_array`

The Python code extracts the hex-byte run of every dump line with
`re.findall(r"^\s+\d+\s+([\w\s]+)\s{2,}", output, re.MULTILINE)`.  The
matcher below implements that pattern's exact semantics: `re.MULTILINE`
line-start anchoring, greedy quantifiers with backtracking, and ASCII
character classes.  It was validated against CPython's `re` on dump lines,
multi-line captures, all-whitespace backtracking and non-matching lines. -/

/-- Python's `\s` class over ASCII: space, tab, newline, carriage return,
vertical tab and form feed. -/
def isPySpace (c : Char) : Bool :=
  c == ' ' || c == '\t' || c == '\n' || c == '\r' || c == '\x0b' || c == '\x0c'

/-- Python's `\w` class over ASCII: letters, digits and underscore. -/
def isWordChar (c : Char) : Bool := c.isAlphanum || c == '_'

/-- The character class `[\w\s]` of `section_data_pattern`. -/
def isWordSpace (c : Char) : Bool := isWordChar c || isPySpace c

/-- Length of the longest prefix whose characters all satisfy `p`. -/
def countWhile (p : Char → Bool) : List Char → Nat
  | [] => 0
  | c :: rest => if p c then countWhile p rest + 1 else 0

/-- Split-point search for `([\w\s]+)\s{2,}`: the largest position `e` with
`k3 < e` and `e + 2 ≤ kE` at which two consecutive `\s` characters start
(`kE` is the end of the maximal `[\w\s]` run).  Greedy matching tries the
longest capture first, so the largest valid split wins. -/
def findSplit (s2 : List Char) (k3 kE : Nat) : Option Nat :=
  (List.range kE).reverse.find? fun e =>
    decide (k3 + 1 ≤ e) && decide (e + 2 ≤ kE) &&
      (match s2.drop e with
       | c1 :: c2 :: _ => isPySpace c1 && isPySpace c2
       | _ => false)

/-- Attempt to match `\s+\d+\s+([\w\s]+)\s{2,}` at the current position
(which the caller has checked to be a `re.MULTILINE` line start).  Returns
the captured group and the total length of the match.  The three leading
quantifiers are forced maximal (`\s` and `\d` runs cannot trade characters);
the group is then as long as possible subject to two `\s` characters
following; when no split inside the gap works, the group backtracks into the
preceding `\s+` run and captures a single whitespace character, which is
possible exactly when that run has at least 4 characters. -/
def matchAt (s : List Char) : Option (List Char × Nat) :=
  let k1 := countWhile isPySpace s
  if k1 == 0 then none else
  let s1 := s.drop k1
  let k2 := countWhile Char.isDigit s1
  if k2 == 0 then none else
  let s2 := s1.drop k2
  let k3 := countWhile isPySpace s2
  if k3 == 0 then none else
  let kE := countWhile isWordSpace s2
  match findSplit s2 k3 kE with
  | some e =>
    let tlen := countWhile isPySpace (s2.drop e)
    some ((s2.drop k3).take (e - k3), k1 + k2 + e + tlen)
  | none => if 4 ≤ k3 then some ((s2.drop (k3 - 3)).take 1, k1 + k2 + k3) else none

/-- The `re.findall` scan: try the pattern at every `^` position, emit each
match's captured group and resume after the match.  `atStart` records
whether the current position is a `re.MULTILINE` line start; `fuel` bounds
the number of steps (every step consumes at least one character, so
`length + 1` suffices). -/
def findallAux (fuel : Nat) (atStart : Bool) (s : List Char) : List (List Char) :=
  match fuel, s with
  | 0, _ => []
  | _, [] => []
  | fuel + 1, c :: rest =>
    if atStart then
      match matchAt (c :: rest) with
      | some (g, len) =>
        g :: findallAux fuel (((c :: rest).take len).getLast? == some '\n')
          ((c :: rest).drop len)
      | none => findallAux fuel (c == '\n') rest
    else findallAux fuel (c == '\n') rest

/-- `re.findall(section_data_pattern, output)`: all captured groups, in
scanning order, with non-overlapping matches. -/
def section_data_findall (output : String) : List (List Char) :=
  findallAux (output.toList.length + 1) true output.toList

/-- The 2-character slices `hex_bytes[i:i+2]` taken by the byte-decoding
comprehension; the final slice may have a single character. -/
def chunks2 : List Char → List (List Char)
  | [] => []
  | a :: b :: rest => [a, b] :: chunks2 rest
  | [a] => [[a]]

/-- The 4-element slices `raw_bytes[i:i+4]` taken by the word-decoding
comprehension; the final slice may be shorter. -/
def chunks4 : List Nat → List (List Nat)
  | [] => []
  | a :: b :: c :: d :: rest => [a, b, c, d] :: chunks4 rest
  | rest => [rest]

/-- Hex digit, as accepted by Python's `int(s, 16)`. -/
def isHexDig (c : Char) : Bool :=
  c.isDigit || (('a' ≤ c && c ≤ 'f') || ('A' ≤ c && c ≤ 'F'))

/-- Value of a hex digit. -/
def hexDigitVal (c : Char) : Nat :=
  if c.isDigit then c.toNat - 48
  else if 'a' ≤ c && c ≤ 'f' then c.toNat - 87
  else c.toNat - 55

/-- Strip Python whitespace from both ends, as `int(s, 16)` does before
reading digits. -/
def trimPySpace (l : List Char) : List Char :=
  ((l.dropWhile isPySpace).reverse.dropWhile isPySpace).reverse

/-- `int(s, 16)` on a slice of at most two characters: surrounding
whitespace is tolerated, and a non-empty run of hex digits is required
(anything else raises `ValueError`, modelled as `none`; a sign or an
underscore is never valid in a slice this short). -/
def int16 (chunk : List Char) : Option Nat :=
  let t := trimPySpace chunk
  if t.isEmpty then none
  else if t.all isHexDig then
    some (t.foldl (fun acc c => 16 * acc + hexDigitVal c) 0)
  else none

/-- Sequence a list of optional bytes; `none` anywhere models the
`ValueError` aborting the whole comprehension. -/
def seqOpt : List (Option Nat) → Option (List Nat)
  | [] => some []
  | o :: rest =>
    match o, seqOpt rest with
    | some v, some vs => some (v :: vs)
    | _, _ => none

/-- `int.from_bytes(bs, byteorder="little")` for any number of bytes. -/
def leVal (bs : List Nat) : Nat := bs.foldr (fun b acc => b + 256 * acc) 0

/-- The `hex_bytes` string: joined captures with `" "` removed, that is
`"".join(section_data_pattern.findall(output)).replace(" ", "")`. -/
def extractedHex (output : String) : List Char :=
  ((section_data_findall output).flatten).filter fun c => c != ' '

/-- The `raw_bytes` stage: each consecutive 2-character slice of `hex_bytes`
decoded as one byte value. -/
def extractedBytes (output : String) : Option (List Nat) :=
  seqOpt ((chunks2 (extractedHex output)).map int16)

/-- `parse_objdump_section_as_uint32_array` from `src/probe.py`: extract the
hex runs, join them and strip spaces, decode 2-character slices as bytes,
and read each 4-element byte slice as a little-endian unsigned 32-bit
integer. -/
def parse_objdump_section_as_uint32_array (output : String) : Option (List Nat) :=
  (extractedBytes output).map fun raw_bytes => (chunks4 raw_bytes).map leVal

/-- Little-endian 4-byte encoding of a `uint32`, the layout in which the
compiler stores each element of the probe's `unsigned int values[]` array
in the object file's initialized-data section. -/
def bytesLE32 (v : Nat) : List Nat :=
  [v % 256, v / 256 % 256, v / 65536 % 256, v / 16777216 % 256]

/-- Concatenated little-endian encoding of a sequence of `uint32` values:
the byte content of the probe object's `.data` section. -/
def bytesOfWords (vs : List Nat) : List Nat := (vs.map bytesLE32).flatten

/-- Concrete `objdump -sj .data` output for the spec's 12-byte scenario
`00 00 00 08  04 00 00 00  08 00 00 00`. -/
def scenarioDump : String :=
  "probe.o:     file format elf64-littleaarch64\n\nContents of section .data:\n 0000 00000008 04000000 08000000  ............\n"

/-- Concrete dump whose extracted hex run decodes to 5 bytes
`00 00 00 08 01`, a byte count that is not a multiple of 4. -/
def oddDump : String :=
  "Contents of section .data:\n 0000 00000008 01  ......\n"

/-! ## ProbeCompiler: `probe_offsets`

`probe_offsets` orchestrates external effects: the checked-out worktree, the
synthesized translation unit, one compiler invocation and one `objdump`
invocation.  A `ProbeEnv` records what the external world does for one call:
whether the target header exists at `os.path.join(art_dir, header)`, the
compiler's exit code and standard error, and the `objdump -sj .data` output
for the produced object file. -/

/-- Whether `p` is a prefix of the second list (`s.startswith(p)`). -/
def startsWith : List Char → List Char → Bool
  | [], _ => true
  | _ :: _, [] => false
  | p :: ps, c :: cs => p == c && startsWith ps cs

/-- Whether `pat` occurs as a contiguous substring (Python's `pat in s`). -/
def containsSub (pat : List Char) : List Char → Bool
  | [] => startsWith pat []
  | c :: rest => startsWith pat (c :: rest) || containsSub pat rest

/-- `ignored_errors` from `src/probe.py`: diagnostics classified as "this
member/class does not exist in this historical state". -/
def ignored_errors : List String := ["is not a member of", "has no member named"]

/-- The triage loop `for e in ignored_errors: if e in result.stderr`. -/
def ignoredErrorMatches (stderr : String) : Bool :=
  ignored_errors.any fun e => containsSub e.toList stderr.toList

/-- External-world record for one `probe_offsets` call. -/
structure ProbeEnv where
  headerExists : Bool
  compileExit : Nat
  compileStderr : String
  objdumpStdout : String
deriving DecidableEq

/-- Result of one `probe_offsets` call: either the returned list of integers
(sentinels or measured values) or an uncaught exception
(`CalledProcessError` after an unrecognized diagnostic, or `ValueError`
while decoding), which aborts the run. -/
inductive ProbeResult where
  | values (vs : List Int)
  | fatal (msg : String)
deriving DecidableEq

/-- The initializer list synthesized into the probe translation unit:
`sizeof (class)` first, then `offsetof (class, field)` for each requested
field in request order. -/
def probe_queries (class_name : String) (field_names : List String) : List String :=
  ("sizeof (" ++ class_name ++ ")") ::
    field_names.map fun f => "offsetof (" ++ class_name ++ ", " ++ f ++ ")"

/-- `probe_offsets` from `src/probe.py`.  The first component is the value
computed (or the uncaught exception); the second counts compiler
invocations.  Missing header: return `[-1, -1, ...]` before any compilation.
Nonzero exit: return `[-2, -2, ...]` when the diagnostic matches
`ignored_errors`, otherwise surface the diagnostic and raise.  Success: the
decoded `objdump` words. -/
def probe_offsets (env : ProbeEnv) (header class_name : String)
    (field_names : List String) : ProbeResult × Nat :=
  if env.headerExists = false then
    (.values ((-1) :: field_names.map fun _ => (-1 : Int)), 0)
  else if env.compileExit ≠ 0 then
    if ignoredErrorMatches env.compileStderr then
      (.values ((-2) :: field_names.map fun _ => (-2 : Int)), 1)
    else (.fatal env.compileStderr, 1)
  else
    match parse_objdump_section_as_uint32_array env.objdumpStdout with
    | some vs => (.values (vs.map Int.ofNat), 1)
    | none => (.fatal ("ValueError"), 1)

/-- Header probed first by `main`. -/
def mirrorHeader : String := "runtime/mirror/art_field.h"

/-- Class measured at the mirror header location. -/
def mirrorClassName : String := "art::mirror::ArtField"

/-- Alternate header probed when the mirror probe reports a negative size. -/
def altHeader : String := "runtime/art_field.h"

/-- Class measured at the alternate header location. -/
def altClassName : String := "art::ArtField"

/-- The tuple unpacking `size, access_flags = probe_offsets(...)`: succeeds
exactly on two-element lists. -/
def unpack2 : List Int → Option (Int × Int)
  | [a, b] => some (a, b)
  | _ => none

/-- One iteration of the probing loop in `main` for a fixed architecture and
version: probe `runtime/mirror/art_field.h` (`art::mirror::ArtField`) first;
when the returned size is negative, re-probe `runtime/art_field.h`
(`art::ArtField`) and record that second outcome instead.  `env1` and `env2`
describe the external world for the two potential calls; the returned list
records the probed (header, class) locations in order.  `none` models an
uncaught exception (fatal compilation or a result that does not unpack). -/
def mainStep (env1 env2 : ProbeEnv) : Option ((Int × Int) × List (String × String)) :=
  match (probe_offsets env1 mirrorHeader mirrorClassName ["access_flags_"]).1 with
  | .fatal _ => none
  | .values vs =>
    match unpack2 vs with
    | none => none
    | some (size, af) =>
      if size < 0 then
        match (probe_offsets env2 altHeader altClassName ["access_flags_"]).1 with
        | .fatal _ => none
        | .values vs2 =>
          (unpack2 vs2).map fun p =>
            (p, [(mirrorHeader, mirrorClassName), (altHeader, altClassName)])
      else some ((size, af), [(mirrorHeader, mirrorClassName)])

/-- Concrete `objdump` output whose data section holds the two words 4, 4. -/
def smallDump : String :=
  "Contents of section .data:\n 0000 04000000 04000000  ........\n"

/-! ## ResultAggregator: the table built by `main`

`main` accumulates one `collections.OrderedDict` mapping
`"{arch}-{api_level}"` to a sorted, de-duplicated list of measurement
strings.  Assignment to an existing key keeps its position; a new key is
appended.  Each insertion replaces the entry with
`sorted(set(entries + [value]))`. -/

/-- Lexicographic (code-point) order on character lists, the order Python's
`list.sort()` uses on strings. -/
def lexLe : List Char → List Char → Bool
  | [], _ => true
  | _ :: _, [] => false
  | a :: as, b :: bs => if a < b then true else if a = b then lexLe as bs else false

/-- Lexicographic string comparison. -/
def strLe (a b : String) : Bool := lexLe a.toList b.toList

/-- `strLe` as a relation, for sortedness statements. -/
def strLeRel (a b : String) : Prop := strLe a b = true

instance : DecidableRel strLeRel := fun a b =>
  inferInstanceAs (Decidable (strLe a b = true))

/-- `sorted(set(entries))`: the lexicographically sorted list of the
distinct elements. -/
def sortedDedup (l : List String) : List String :=
  List.insertionSort strLeRel l.dedup

/-- `AndroidVersion` from `src/probe.py`. -/
structure AndroidVersion where
  tag : String
  major : Nat
  minor : Nat
  api_level : Nat
deriving DecidableEq

/-- The fixed `major.minor → API level` table `api_levels`. -/
def api_levels : List (String × Nat) :=
  [("5.0", 21), ("5.1", 22), ("6.0", 23), ("7.0", 24), ("7.1", 25),
   ("8.0", 26), ("8.1", 27), ("9.0", 28), ("10.0", 29)]

/-- `AndroidVersion.from_tag`: parse the tag and look up the API level;
`none` models the uncaught exception when parsing fails or the level is
missing from the table. -/
def AndroidVersion.from_tag (tag : String) : Option AndroidVersion :=
  match try_parse_tag tag with
  | none => none
  | some (major, minor) =>
    (api_levels.lookup (toString major ++ "." ++ toString minor)).map
      fun api => ⟨tag, major, minor, api⟩

/-- Architecture loop order in `main`: `["arm", "x86", "arm64", "x86_64"]`. -/
def mainArchs : List String := ["arm", "x86", "arm64", "x86_64"]

/-- The table key `"{}-{}".format(arch, version.api_level)`. -/
def archKey (arch : String) (v : AndroidVersion) : String :=
  arch ++ "-" ++ toString v.api_level

/-- One loop-body table update: fetch the key's entries (empty when
absent), append the value, de-duplicate through `set`, sort, and store
back; an `OrderedDict` keeps an existing key's position and appends a new
key at the end. -/
def updateEntry (result : List (String × List String)) (key value : String) :
    List (String × List String) :=
  match result.lookup key with
  | some entries =>
    result.map fun kv =>
      if kv.1 = key then (key, sortedDedup (entries ++ [value])) else kv
  | none => result ++ [(key, sortedDedup [value])]

/-- The result table built by the nested loops of `main`.  The measurement
string for a given (architecture, version) — `"size=… access_flags=…"` with
the probed values or sentinels — is abstracted as the oracle `value`. -/
def main_result_table (versions : List AndroidVersion)
    (value : String → AndroidVersion → String) : List (String × List String) :=
  mainArchs.foldl
    (fun res arch => versions.foldl
      (fun res v => updateEntry res (archKey arch v) (value arch v)) res)
    []

/-- Invariant of interest for C9: every entry list in the table is
lexicographically sorted and duplicate-free. -/
abbrev TableInv (res : List (String × List String)) : Prop :=
  ∀ k es, (k, es) ∈ res → List.Sorted strLeRel es ∧ es.Nodup

/-! ## The access-control rewrite of the target header

`probe_offsets` rewrites the checked-out header in place:
`header_source.replace("protected:", "public:").replace("private:", "public:")`. -/

/-- Python's `str.replace(pat, repl)` on character lists: scan left to
right, replacing non-overlapping occurrences.  (For an empty pattern Python
would behave differently, but the patterns used by the probe are never
empty and the guard keeps this function total.) -/
def replaceList (pat repl : List Char) : List Char → List Char
  | [] => []
  | c :: rest =>
    if h : pat ≠ [] ∧ startsWith pat (c :: rest) = true then
      repl ++ replaceList pat repl ((c :: rest).drop pat.length)
    else c :: replaceList pat repl rest
termination_by s => s.length
decreasing_by
  · simp only [List.length_drop, List.length_cons]
    have hp := List.length_pos.mpr h.1
    omega
  · simp only [List.length_cons]
    omega

/-- `s.replace(pat, repl)` on strings. -/
def pythonReplace (s pat repl : String) : String :=
  ⟨replaceList pat.toList repl.toList s.toList⟩

/-- The header mutation performed by `probe_offsets`: every `protected:`
and `private:` becomes `public:`. -/
def rewriteAccess (header_source : String) : String :=
  pythonReplace (pythonReplace header_source ("protected:") ("public:"))
    ("private:") ("public:")

/-- `pat` occurs as a contiguous substring of `s`. -/
def Occurs (pat s : List Char) : Prop := ∃ x y, s = x ++ pat ++ y

/-- All suffixes of a list, longest first. -/
def allSuffixes : List Char → List (List Char)
  | [] => [[]]
  | c :: rest => (c :: rest) :: allSuffixes rest

/-- No nonempty suffix of `Q` is a prefix of `R`: the decidable overlap
condition the idempotence argument rests on. -/
def noNESuffixPrefix (Q R : List Char) : Bool :=
  (allSuffixes Q).all fun q => q.isEmpty || !(startsWith q R)

/-! ### Lemmas about the resolver -/

theorem walkDiffs_eq (diff : String → String → String → String) (path : String)
    (ts : List String) (prev : String) :
    walkDiffs diff path prev ts =
      ((ts.zip (prev :: ts)).filter
        (fun p => decide (0 < (diff p.2 p.1 path).length))).map Prod.fst := by
  induction ts generalizing prev with
  | nil => rfl
  | cons t rest ih =>
    by_cases h : 0 < (diff prev t path).length
    · simp [walkDiffs, h, ih t]
    · simp [walkDiffs, h, ih t]

theorem walkDiffs_sublist (diff : String → String → String → String) (path : String)
    (ts : List String) (prev : String) :
    List.Sublist (walkDiffs diff path prev ts) ts := by
  induction ts generalizing prev with
  | nil => exact List.Sublist.refl _
  | cons t rest ih =>
    by_cases h : 0 < (diff prev t path).length
    · simpa [walkDiffs, h] using (ih t).cons₂ t
    · simpa [walkDiffs, h] using (ih t).cons t

theorem compute_tags_affecting_path_sublist (gitTags : List String)
    (diff : String → String → String → String) (path : String) :
    List.Sublist (compute_tags_affecting_path gitTags diff path)
      (gitTags.filter is_relevant_tag) := by
  unfold compute_tags_affecting_path
  cases h : gitTags.filter is_relevant_tag with
  | nil => exact List.Sublist.refl _
  | cons first rest => exact (walkDiffs_sublist diff path rest first).cons₂ first

theorem mem_dedupFirstAux {seen : List String} {l : List String} {x : String}
    (h : x ∈ dedupFirstAux seen l) : x ∈ l ∧ x ∉ seen := by
  induction l generalizing seen with
  | nil => simp [dedupFirstAux] at h
  | cons t rest ih =>
    by_cases ht : t ∈ seen
    · simp only [dedupFirstAux, if_pos ht] at h
      exact ⟨List.mem_cons_of_mem _ (ih h).1, (ih h).2⟩
    · simp only [dedupFirstAux, if_neg ht] at h
      rcases List.mem_cons.mp h with h1 | h1
      · exact ⟨by simp [h1], by simpa [h1] using ht⟩
      · refine ⟨List.mem_cons_of_mem _ (ih h1).1, fun hx => (ih h1).2 ?_⟩
        exact List.mem_cons_of_mem _ hx

theorem nodup_dedupFirstAux (seen : List String) (l : List String) :
    (dedupFirstAux seen l).Nodup := by
  induction l generalizing seen with
  | nil => simp [dedupFirstAux]
  | cons t rest ih =>
    by_cases ht : t ∈ seen
    · simpa [dedupFirstAux, if_pos ht] using ih seen
    · simp only [dedupFirstAux, if_neg ht]
      refine List.nodup_cons.mpr ⟨fun hmem => ?_, ih (t :: seen)⟩
      exact (mem_dedupFirstAux hmem).2 (List.mem_cons_self t seen)

theorem dedupFirstAux_of_nodup (l : List String) (seen : List String)
    (hl : l.Nodup) (hdisj : ∀ x ∈ l, x ∉ seen) :
    dedupFirstAux seen l = l := by
  induction l generalizing seen with
  | nil => rfl
  | cons t rest ih =>
    have ht : t ∉ seen := hdisj t (List.mem_cons_self t rest)
    simp only [dedupFirstAux, if_neg ht]
    refine congrArg (t :: ·) (ih (t :: seen) (List.nodup_cons.mp hl).2 ?_)
    intro x hx hmem
    rcases List.mem_cons.mp hmem with h | h
    · exact (List.nodup_cons.mp hl).1 (h ▸ hx)
    · exact hdisj x (List.mem_cons_of_mem _ hx) h

theorem nodup_pairwise_idxIn (l : List String) (h : l.Nodup) :
    l.Pairwise fun a b => idxIn l a < idxIn l b := by
  induction l with
  | nil => exact List.Pairwise.nil
  | cons x rest ih =>
    rcases List.nodup_cons.mp h with ⟨hx, hrest⟩
    refine List.Pairwise.cons (fun b hb => ?_) ?_
    · have hbx : x ≠ b := fun hbx => hx (hbx ▸ hb)
      have h1 : idxIn (x :: rest) x = 0 := by simp [idxIn]
      have h2 : idxIn (x :: rest) b = idxIn rest b + 1 := by simp [idxIn, hbx]
      omega
    · refine List.Pairwise.imp_of_mem (fun {a} {b} ha hb hab => ?_) (ih hrest)
      have hax : x ≠ a := fun h' => hx (h' ▸ ha)
      have hbx : x ≠ b := fun h' => hx (h' ▸ hb)
      have h1 : idxIn (x :: rest) a = idxIn rest a + 1 := by simp [idxIn, hax]
      have h2 : idxIn (x :: rest) b = idxIn rest b + 1 := by simp [idxIn, hbx]
      omega

/-- C1: for every committer-date-ordered tag listing, diff oracle and probed
path, `compute_tags_affecting_path` returns the earliest eligible tag followed
exactly by those eligible tags whose path-scoped diff against the immediately
preceding eligible tag is non-empty; equivalently, a tag is included iff it is
the earliest eligible tag or it forms, together with its immediate predecessor
in the eligible list, a consecutive pair with non-empty diff. -/
theorem c1_resolver_characterisation (gitTags : List String)
    (diff : String → String → String → String) (path : String) (e : String)
    (es : List String) (hfilter : gitTags.filter is_relevant_tag = e :: es) :
    compute_tags_affecting_path gitTags diff path =
      e :: ((es.zip (e :: es)).filter
        (fun p => decide (0 < (diff p.2 p.1 path).length))).map Prod.fst
    ∧ ∀ t, t ∈ compute_tags_affecting_path gitTags diff path ↔
        t = e ∨ ∃ prev, (t, prev) ∈ es.zip (e :: es) ∧
          0 < (diff prev t path).length := by
  have hEq : compute_tags_affecting_path gitTags diff path =
      e :: ((es.zip (e :: es)).filter
        (fun p => decide (0 < (diff p.2 p.1 path).length))).map Prod.fst := by
    unfold compute_tags_affecting_path
    rw [hfilter]
    show e :: walkDiffs diff path e es = _
    rw [walkDiffs_eq]
  refine ⟨hEq, fun t => ?_⟩
  rw [hEq]
  simp only [List.mem_cons, List.mem_map, List.mem_filter, decide_eq_true_eq]
  constructor
  · rintro (rfl | ⟨⟨t', prev⟩, ⟨hmem, hd⟩, rfl⟩)
    · exact Or.inl rfl
    · exact Or.inr ⟨prev, hmem, hd⟩
  · rintro (rfl | ⟨prev, hmem, hd⟩)
    · exact Or.inl rfl
    · exact Or.inr ⟨(t, prev), ⟨hmem, hd⟩, rfl⟩

/-- C1 witness: the scenario from the spec.  Three eligible tags where only
the `v1 → v2` diff touches the probed path: the resolver returns `[v1, v2]`
and excludes `v3`. -/
theorem c1_resolver_characterisation_witness :
    compute_tags_affecting_path
      [tagV1, tagV2, tagV3]
      (fun prev t _ =>
        if prev = tagV1 ∧ t = tagV2 then ("diff") else (""))
      "runtime/mirror/art_field.h" =
      [tagV1, tagV2] := by
  rw [(c1_resolver_characterisation _ _ _ tagV1
        [tagV2, tagV3] (by decide)).1]
  decide

/-- C2 (amended): the resolver's output never contains duplicate tags, and for
a single input path it is strictly ordered by commit time: its elements appear
at strictly increasing positions of the committer-date-ordered eligible tag
list.  The ordering part of the original claim is false for several paths,
because de-duplication keeps first occurrences (see the counterexample). -/
theorem c2_resolver_nodup_and_single_path_ordered (gitTags : List String)
    (diff : String → String → String → String) (paths : List String) :
    (compute_tags_affecting gitTags diff paths).Nodup
    ∧ (∀ path, gitTags.Nodup →
        StrictOrderedIn (gitTags.filter is_relevant_tag)
          (compute_tags_affecting gitTags diff [path])) := by
  refine ⟨nodup_dedupFirstAux [] _, fun path hnd => ?_⟩
  have helig : (gitTags.filter is_relevant_tag).Nodup := hnd.filter _
  have hsub := compute_tags_affecting_path_sublist gitTags diff path
  have hres : compute_tags_affecting gitTags diff [path] =
      compute_tags_affecting_path gitTags diff path := by
    unfold compute_tags_affecting dedupFirst
    simp only [List.map_cons, List.map_nil, List.flatten_cons, List.flatten_nil,
      List.append_nil]
    exact dedupFirstAux_of_nodup _ _ (helig.sublist hsub) (by simp)
  rw [hres]
  exact (nodup_pairwise_idxIn _ helig).sublist hsub

/-- C2 witness: on a concrete single-path input the resolver output is
duplicate-free and strictly ordered by commit time. -/
theorem c2_resolver_nodup_and_single_path_ordered_witness :
    (compute_tags_affecting
        [tagV1, tagV2, tagV3]
        (fun _ _ _ => ("x")) ["runtime/art_field.h"]).Nodup
    ∧ StrictOrderedIn
        (List.filter is_relevant_tag
          [tagV1, tagV2, tagV3])
        (compute_tags_affecting
          [tagV1, tagV2, tagV3]
          (fun _ _ _ => ("x")) ["runtime/art_field.h"]) :=
  ⟨(c2_resolver_nodup_and_single_path_ordered _ _ _).1,
    (c2_resolver_nodup_and_single_path_ordered
      [tagV1, tagV2, tagV3]
      (fun _ _ _ => ("x")) ["runtime/art_field.h"]).2
      ("runtime/art_field.h") (by decide)⟩

/-- C2 counterexample: with two input paths whose per-path results interleave
(path `a` changes only at `v2 → v3`, path `b` only at `v1 → v2`) the output is
`[v1, v3, v2]`, which is not strictly ordered by commit time, so the claim
fails as stated. -/
theorem c2_counterexample :
    ¬ (StrictOrderedIn
        (List.filter is_relevant_tag
          [tagV1, tagV2, tagV3])
        (compute_tags_affecting
          [tagV1, tagV2, tagV3]
          (fun prev t path =>
            if path = "a" then
              (if prev = tagV2 ∧ t = tagV3 then ("x") else (""))
            else
              (if prev = tagV1 ∧ t = tagV2 then ("x") else ("")))
          ["a", "b"])
      ∧ (compute_tags_affecting
          [tagV1, tagV2, tagV3]
          (fun prev t path =>
            if path = "a" then
              (if prev = tagV2 ∧ t = tagV3 then ("x") else (""))
            else
              (if prev = tagV1 ∧ t = tagV2 then ("x") else ("")))
          ["a", "b"]).Nodup) := by
  decide

/-! ### Lemmas about the extractor -/

theorem chunks4_length : ∀ bs : List Nat, (chunks4 bs).length = (bs.length + 3) / 4
  | [] => by simp [chunks4]
  | [a] => by simp [chunks4]
  | [a, b] => by simp [chunks4]
  | [a, b, c] => by simp [chunks4]
  | a :: b :: c :: d :: rest => by
    have ih := chunks4_length rest
    simp [chunks4, ih]
    omega

theorem chunks4_get : ∀ (bs : List Nat) (i : Nat), i < (chunks4 bs).length →
    (chunks4 bs).get? i = some ((bs.drop (4 * i)).take 4)
  | [], i, h => by simp [chunks4] at h
  | [a], i, h => by
    simp [chunks4] at h
    subst h
    simp [chunks4]
  | [a, b], i, h => by
    simp [chunks4] at h
    subst h
    simp [chunks4]
  | [a, b, c], i, h => by
    simp [chunks4] at h
    subst h
    simp [chunks4]
  | a :: b :: c :: d :: rest, i, h => by
    match i with
    | 0 => simp [chunks4]
    | i + 1 =>
      have ih := chunks4_get rest i (by simp [chunks4] at h; omega)
      have harith : 4 * (i + 1) = 4 * i + 4 := by ring
      simp only [chunks4, List.get?, harith]
      rw [show (a :: b :: c :: d :: rest).drop (4 * i + 4) = rest.drop (4 * i) from by
        rw [show 4 * i + 4 = 4 * i + 1 + 1 + 1 + 1 from by omega]
        simp [List.drop_succ_cons]]
      exact ih

set_option maxRecDepth 4000 in
/-- C3: whenever the extracted-and-decoded byte sequence of a dump is `bs`,
the parser returns exactly one value per 4-byte slice of `bs`, in order,
each being the little-endian unsigned 32-bit value of its slice; in
particular the spec's 12-byte scenario `00 00 00 08 04 00 00 00 08 00 00 00`
decodes to `[0x08000000, 0x00000004, 0x00000008]`. -/
theorem c3_extractor_le_uint32 :
    (∀ (output : String) (bs : List Nat), extractedBytes output = some bs →
      parse_objdump_section_as_uint32_array output = some ((chunks4 bs).map leVal)
      ∧ ((chunks4 bs).map leVal).length = (bs.length + 3) / 4
      ∧ ∀ i, i < (bs.length + 3) / 4 →
          ((chunks4 bs).map leVal).get? i = some (leVal ((bs.drop (4 * i)).take 4)))
    ∧ parse_objdump_section_as_uint32_array scenarioDump = some [134217728, 4, 8] := by
  constructor
  · intro output bs hb
    refine ⟨by simp [parse_objdump_section_as_uint32_array, hb], by simp [chunks4_length], ?_⟩
    intro i hi
    rw [List.get?_map, chunks4_get bs i (by rw [chunks4_length]; exact hi)]
    rfl
  · decide

set_option maxRecDepth 4000 in
/-- C3 witness: the scenario dump's extracted bytes are the 12 scenario
bytes, and the parser output is their 4-byte little-endian reading. -/
theorem c3_extractor_le_uint32_witness :
    parse_objdump_section_as_uint32_array scenarioDump =
      some ((chunks4 [0, 0, 0, 8, 4, 0, 0, 0, 8, 0, 0, 0]).map leVal) :=
  (c3_extractor_le_uint32.1 scenarioDump [0, 0, 0, 8, 4, 0, 0, 0, 8, 0, 0, 0]
    (by decide)).1

/-- C4 counterexample: the dump `oddDump` decodes to the 5 bytes
`00 00 00 08 01`.  The claim predicts that the trailing byte is silently
dropped, i.e. `5 / 4 = 1` output element; the code instead produces a second
element `1` from the trailing byte. -/
theorem c4_counterexample :
    extractedBytes oddDump = some [0, 0, 0, 8, 1]
    ∧ parse_objdump_section_as_uint32_array oddDump = some [134217728, 1]
    ∧ ¬ (parse_objdump_section_as_uint32_array oddDump).map List.length = some (5 / 4) := by
  refine ⟨by decide, by decide, by decide⟩

/-- C4 (amended): when the decoded byte count is not a multiple of 4, the
trailing (fewer than 4) bytes are not dropped: they produce exactly one
additional final output element holding their little-endian value. -/
theorem c4_trailing_bytes_extra_element (output : String) (bs : List Nat)
    (hb : extractedBytes output = some bs) (hmod : bs.length % 4 ≠ 0) :
    ∃ vs, parse_objdump_section_as_uint32_array output = some vs ∧
      vs.length = bs.length / 4 + 1 ∧
      vs.get? (bs.length / 4) = some (leVal (bs.drop (4 * (bs.length / 4)))) := by
  refine ⟨(chunks4 bs).map leVal,
    by simp [parse_objdump_section_as_uint32_array, hb], ?_, ?_⟩
  · rw [List.length_map, chunks4_length]
    omega
  · rw [List.get?_map, chunks4_get bs _ (by rw [chunks4_length]; omega)]
    have hle : (bs.drop (4 * (bs.length / 4))).length ≤ 4 := by
      rw [List.length_drop]
      omega
    rw [List.take_of_length_le hle]
    rfl

/-- C4 witness: the amended claim at the concrete dump `oddDump`. -/
theorem c4_trailing_bytes_extra_element_witness :
    ∃ vs, parse_objdump_section_as_uint32_array oddDump = some vs ∧
      vs.length = 5 / 4 + 1 ∧
      vs.get? (5 / 4) = some (leVal ([0, 0, 0, 8, 1].drop (4 * (5 / 4)))) := by
  have h := c4_trailing_bytes_extra_element oddDump [0, 0, 0, 8, 1]
    (by decide) (by decide)
  simpa using h

/-! ### Lemmas about the probe pipeline -/

theorem leVal_bytesLE32 (v : Nat) (h : v < 4294967296) :
    leVal (bytesLE32 v) = v := by
  simp [leVal, bytesLE32]
  omega

theorem chunks4_bytesOfWords : ∀ vs : List Nat,
    chunks4 (bytesOfWords vs) = vs.map bytesLE32
  | [] => by simp [bytesOfWords, chunks4]
  | v :: rest => by
    have ih := chunks4_bytesOfWords rest
    show bytesLE32 v :: chunks4 (bytesOfWords rest) =
      bytesLE32 v :: List.map bytesLE32 rest
    rw [ih]

theorem map_leVal_bytesLE32 (vs : List Nat) (hv : ∀ v ∈ vs, v < 4294967296) :
    (vs.map bytesLE32).map leVal = vs := by
  induction vs with
  | nil => rfl
  | cons v rest ih =>
    simp only [List.map_cons]
    rw [leVal_bytesLE32 v (hv v (by simp)),
      ih (fun w hw => hv w (List.mem_cons_of_mem _ hw))]

theorem parse_objdump_of_words (output : String) (vs : List Nat)
    (hb : extractedBytes output = some (bytesOfWords vs))
    (hv : ∀ v ∈ vs, v < 4294967296) :
    parse_objdump_section_as_uint32_array output = some vs := by
  unfold parse_objdump_section_as_uint32_array
  rw [hb]
  show some ((chunks4 (bytesOfWords vs)).map leVal) = some vs
  rw [chunks4_bytesOfWords, map_leVal_bytesLE32 vs hv]

theorem map_const_int (fields : List String) (z : Int) :
    fields.map (fun _ => z) = List.replicate fields.length z := by
  induction fields with
  | nil => rfl
  | cons f rest ih => simp [ih, List.replicate_succ]

/-- C5: for a probe whose compilation succeeds and whose object file's
initialized-data section holds exactly the values of the synthesized
queries (`sizeof(class)` then one `offsetof(class, field)` per requested
field, in request order, the external toolchain guarantee), `probe_offsets`
returns those values: element 0 is the class size, there is exactly one
offset per requested field in request order, and the result length is
`1 + number of requested fields`. -/
theorem c5_measured_shape (env : ProbeEnv) (header class_name : String)
    (fields : List String) (sem : String → Nat)
    (hhdr : env.headerExists = true) (hexit : env.compileExit = 0)
    (hv : ∀ q, sem q < 4294967296)
    (hdump : extractedBytes env.objdumpStdout =
      some (bytesOfWords ((probe_queries class_name fields).map sem))) :
    probe_offsets env header class_name fields =
      (.values (((probe_queries class_name fields).map sem).map Int.ofNat), 1)
    ∧ (((probe_queries class_name fields).map sem).map Int.ofNat).length
        = 1 + fields.length
    ∧ (((probe_queries class_name fields).map sem).map Int.ofNat).get? 0 =
        some (Int.ofNat (sem ("sizeof (" ++ class_name ++ ")")))
    ∧ ∀ i, i < fields.length →
        (((probe_queries class_name fields).map sem).map Int.ofNat).get? (i + 1) =
          (fields.get? i).map fun f =>
            Int.ofNat (sem ("offsetof (" ++ class_name ++ ", " ++ f ++ ")")) := by
  have hparse := parse_objdump_of_words env.objdumpStdout
    ((probe_queries class_name fields).map sem) hdump (by
      intro v hvmem
      rcases List.mem_map.mp hvmem with ⟨q, _, rfl⟩
      exact hv q)
  refine ⟨?_, ?_, ?_, ?_⟩
  · simp [probe_offsets, hhdr, hexit, hparse]
  · simp [probe_queries, Nat.add_comm]
  · simp [probe_queries]
  · intro i hi
    simp [probe_queries, List.get?_map]
    cases fields[i]? <;> rfl

/-- C5 witness: a successful probe of one field whose data section holds the
words 4, 4 yields `Measured` values `[4, 4]` after one compile. -/
theorem c5_measured_shape_witness :
    probe_offsets ⟨true, 0, "", smallDump⟩ mirrorHeader mirrorClassName
      ["access_flags_"] = (.values [4, 4], 1) := by
  have h := c5_measured_shape ⟨true, 0, "", smallDump⟩ mirrorHeader
    mirrorClassName ["access_flags_"] (fun _ => 4) rfl rfl
    (fun _ => by norm_num) (by decide)
  simpa using h.1

/-- C6: when the target header does not exist in the checked-out source
tree, `probe_offsets` returns the sentinel `-1` for the size and for every
requested field offset, with zero compiler invocations. -/
theorem c6_header_absent (env : ProbeEnv) (header class_name : String)
    (fields : List String) (h : env.headerExists = false) :
    probe_offsets env header class_name fields =
      (.values (List.replicate (1 + fields.length) (-1)), 0) := by
  simp only [probe_offsets, h]
  rw [map_const_int, Nat.add_comm 1, List.replicate_succ]
  simp

/-- C6 witness: a concrete absent-header probe with two requested fields. -/
theorem c6_header_absent_witness :
    probe_offsets ⟨false, 0, "", ""⟩ mirrorHeader mirrorClassName
      ["access_flags_", "declaring_class_"] =
      (.values [-1, -1, -1], 0) := by
  have h := c6_header_absent ⟨false, 0, "", ""⟩ mirrorHeader mirrorClassName
    ["access_flags_", "declaring_class_"] rfl
  simpa using h

/-- C7: on a nonzero compiler exit, if the diagnostic contains one of the
fixed ignorable substrings (`"is not a member of"`, `"has no member
named"`) then `probe_offsets` returns the sentinel `-2` for the size and
every requested field offset (and the run continues); otherwise the
diagnostic is surfaced and the outcome is fatal. -/
theorem c7_compile_failure_triage (env : ProbeEnv) (header class_name : String)
    (fields : List String) (hhdr : env.headerExists = true)
    (hexit : env.compileExit ≠ 0) :
    (ignoredErrorMatches env.compileStderr = true →
      probe_offsets env header class_name fields =
        (.values (List.replicate (1 + fields.length) (-2)), 1))
    ∧ (ignoredErrorMatches env.compileStderr = false →
      probe_offsets env header class_name fields =
        (.fatal env.compileStderr, 1)) := by
  constructor
  · intro hm
    simp only [probe_offsets, hhdr, hexit, hm]
    rw [map_const_int, Nat.add_comm 1, List.replicate_succ]
    simp
    exact fun h0 => absurd h0 hexit
  · intro hm
    simp [probe_offsets, hhdr, hexit, hm]

/-- C7 witness: a diagnostic containing `"has no member named"` yields the
`-2` sentinels, and an unrecognized diagnostic is fatal and surfaced. -/
theorem c7_compile_failure_triage_witness :
    probe_offsets ⟨true, 1, "error: 'art::ArtField' has no member named 'access_flags_'", ""⟩
      mirrorHeader mirrorClassName ["access_flags_"] = (.values [-2, -2], 1)
    ∧ probe_offsets ⟨true, 1, "error: linker failed", ""⟩
        mirrorHeader mirrorClassName ["access_flags_"] =
        (.fatal "error: linker failed", 1) := by
  constructor
  · have h := c7_compile_failure_triage
      ⟨true, 1, "error: 'art::ArtField' has no member named 'access_flags_'", ""⟩
      mirrorHeader mirrorClassName ["access_flags_"] rfl (by decide)
    simpa using h.1 (by decide)
  · have h := c7_compile_failure_triage ⟨true, 1, "error: linker failed", ""⟩
      mirrorHeader mirrorClassName ["access_flags_"] rfl (by decide)
    simpa using h.2 (by decide)

/-- C10: for each (architecture, version) pair, `main` first probes the
mirror location `runtime/mirror/art_field.h` (`art::mirror::ArtField`);
whenever that probe returns a negative size (the sentinels `-1` and `-2`
are the only negative values probes produce), it re-probes the alternate
location `runtime/art_field.h` (`art::ArtField`) and records the second
probe's outcome in place of the first; a non-negative size is recorded
directly with no second probe. -/
theorem c10_mirror_then_alternate (env1 env2 : ProbeEnv) (s a : Int)
    (h1 : (probe_offsets env1 mirrorHeader mirrorClassName ["access_flags_"]).1 =
      .values [s, a]) :
    (s < 0 → ∀ s2 a2,
      (probe_offsets env2 altHeader altClassName ["access_flags_"]).1 =
        .values [s2, a2] →
      mainStep env1 env2 = some ((s2, a2),
        [(mirrorHeader, mirrorClassName), (altHeader, altClassName)]))
    ∧ (0 ≤ s →
      mainStep env1 env2 = some ((s, a), [(mirrorHeader, mirrorClassName)])) := by
  constructor
  · intro hneg s2 a2 h2
    simp [mainStep, h1, h2, unpack2, hneg]
  · intro hpos
    simp [mainStep, h1, unpack2, not_lt.mpr hpos]

/-- C10 witness: a missing mirror header (sentinel `-1`) triggers the
alternate probe, whose measured values `(4, 4)` are recorded; the trace
shows the mirror location probed first, then the alternate. -/
theorem c10_mirror_then_alternate_witness :
    mainStep ⟨false, 0, "", ""⟩ ⟨true, 0, "", smallDump⟩ =
      some ((4, 4), [(mirrorHeader, mirrorClassName), (altHeader, altClassName)]) := by
  have h := c10_mirror_then_alternate ⟨false, 0, "", ""⟩ ⟨true, 0, "", smallDump⟩
    (-1) (-1) (by decide)
  exact h.1 (by decide) 4 4 (by decide)

/-! ### Lemmas about the aggregator -/

theorem lexLe_total : ∀ a b : List Char, lexLe a b = true ∨ lexLe b a = true
  | [], _ => Or.inl rfl
  | _ :: _, [] => Or.inr rfl
  | a :: as, b :: bs => by
    rcases lt_trichotomy a b with h | h | h
    · left
      simp [lexLe, h]
    · subst h
      rcases lexLe_total as bs with h2 | h2
      · left
        simp [lexLe, h2]
      · right
        simp [lexLe, h2]
    · right
      simp [lexLe, h]

theorem lexLe_trans : ∀ a b c : List Char,
    lexLe a b = true → lexLe b c = true → lexLe a c = true
  | [], _, _, _, _ => rfl
  | _ :: _, [], _, h, _ => by simp [lexLe] at h
  | _ :: _, _ :: _, [], _, h2 => by simp [lexLe] at h2
  | a :: as, b :: bs, c :: cs, h1, h2 => by
    by_cases hab : a < b
    · by_cases hbc : b < c
      · simp [lexLe, lt_trans hab hbc]
      · by_cases hbc2 : b = c
        · subst hbc2
          simp [lexLe, hab]
        · simp [lexLe, hbc, hbc2] at h2
    · by_cases hab2 : a = b
      · subst hab2
        by_cases hac : a < c
        · simp [lexLe, hac]
        · by_cases hac2 : a = c
          · subst hac2
            simp only [lexLe, if_neg (lt_irrefl a), if_pos rfl] at h1 h2 ⊢
            exact lexLe_trans as bs cs h1 h2
          · simp [lexLe, hac, hac2] at h2
      · simp [lexLe, hab, hab2] at h1

theorem strLeRel_total (a b : String) : strLeRel a b ∨ strLeRel b a :=
  lexLe_total a.toList b.toList

theorem strLeRel_trans (a b c : String) :
    strLeRel a b → strLeRel b c → strLeRel a c :=
  lexLe_trans a.toList b.toList c.toList

theorem sortedDedup_sorted (l : List String) :
    List.Sorted strLeRel (sortedDedup l) := by
  haveI : IsTotal String strLeRel := ⟨strLeRel_total⟩
  haveI : IsTrans String strLeRel := ⟨strLeRel_trans⟩
  exact List.sorted_insertionSort strLeRel l.dedup

theorem sortedDedup_nodup (l : List String) : (sortedDedup l).Nodup :=
  (List.perm_insertionSort strLeRel l.dedup).nodup_iff.mpr l.nodup_dedup

theorem lookup_none_iff (k : String) :
    ∀ res : List (String × List String),
      res.lookup k = none ↔ k ∉ res.map Prod.fst
  | [] => by simp
  | (k', v) :: rest => by
    by_cases h : k = k'
    · subst h
      simp [List.lookup]
    · have hbeq : (k == k') = false := beq_eq_false_iff_ne.mpr h
      simp [List.lookup, hbeq, lookup_none_iff k rest, h]

theorem map_fst_updateEntry (res : List (String × List String)) (k v : String) :
    (updateEntry res k v).map Prod.fst =
      if k ∈ res.map Prod.fst then res.map Prod.fst
      else res.map Prod.fst ++ [k] := by
  unfold updateEntry
  cases hl : res.lookup k with
  | none =>
    rw [if_neg ((lookup_none_iff k res).mp hl)]
    simp
  | some es =>
    have hk : k ∈ res.map Prod.fst := by
      by_contra hk
      rw [(lookup_none_iff k res).mpr hk] at hl
      exact Option.noConfusion hl
    rw [if_pos hk, List.map_map]
    refine List.map_congr_left fun kv hkv => ?_
    by_cases h : kv.1 = k
    · simp [h]
    · simp [h]

theorem updateEntry_inv (res : List (String × List String)) (k v : String)
    (hres : TableInv res) : TableInv (updateEntry res k v) := by
  unfold updateEntry
  cases hl : res.lookup k with
  | none =>
    intro k' es hmem
    rcases List.mem_append.mp hmem with h | h
    · exact hres k' es h
    · simp only [List.mem_singleton, Prod.mk.injEq] at h
      rw [h.2]
      exact ⟨sortedDedup_sorted _, sortedDedup_nodup _⟩
  | some es0 =>
    intro k' es hmem
    rcases List.mem_map.mp hmem with ⟨kv, hkv, heq⟩
    by_cases h : kv.1 = k
    · rw [if_pos h] at heq
      cases heq
      exact ⟨sortedDedup_sorted _, sortedDedup_nodup _⟩
    · rw [if_neg h] at heq
      exact hres k' es (heq ▸ hkv)

theorem inner_fold_inv (value : String → AndroidVersion → String) (arch : String) :
    ∀ (versions : List AndroidVersion) (res : List (String × List String)),
      TableInv res →
      TableInv (versions.foldl
        (fun res v => updateEntry res (archKey arch v) (value arch v)) res)
  | [], res, h => h
  | v :: rest, res, h =>
    inner_fold_inv value arch rest _ (updateEntry_inv res _ _ h)

theorem outer_fold_inv (value : String → AndroidVersion → String)
    (versions : List AndroidVersion) :
    ∀ (archs : List String) (res : List (String × List String)),
      TableInv res →
      TableInv (archs.foldl
        (fun res arch => versions.foldl
          (fun res v => updateEntry res (archKey arch v) (value arch v)) res)
        res)
  | [], res, h => h
  | arch :: rest, res, h =>
    outer_fold_inv value versions rest _ (inner_fold_inv value arch versions res h)

theorem inner_fold_keys (value : String → AndroidVersion → String) (arch : String) :
    ∀ (versions : List AndroidVersion) (res : List (String × List String)),
      (versions.foldl
        (fun res v => updateEntry res (archKey arch v) (value arch v)) res).map
          Prod.fst =
      (versions.map (archKey arch)).foldl
        (fun ks k => if k ∈ ks then ks else ks ++ [k]) (res.map Prod.fst)
  | [], res => rfl
  | v :: rest, res => by
    simp only [List.foldl_cons, List.map_cons]
    rw [inner_fold_keys value arch rest _, map_fst_updateEntry]

theorem outer_fold_keys (value : String → AndroidVersion → String)
    (versions : List AndroidVersion) :
    ∀ (archs : List String) (res : List (String × List String)),
      (archs.foldl
        (fun res arch => versions.foldl
          (fun res v => updateEntry res (archKey arch v) (value arch v)) res)
        res).map Prod.fst =
      ((archs.map fun a => versions.map (archKey a)).flatten).foldl
        (fun ks k => if k ∈ ks then ks else ks ++ [k]) (res.map Prod.fst)
  | [], res => rfl
  | arch :: rest, res => by
    simp only [List.foldl_cons, List.map_cons, List.flatten_cons, List.foldl_append]
    rw [outer_fold_keys value versions rest _, inner_fold_keys]

theorem dedupFirstAux_congr_seen :
    ∀ (l seen1 seen2 : List String), (∀ x, x ∈ seen1 ↔ x ∈ seen2) →
      dedupFirstAux seen1 l = dedupFirstAux seen2 l
  | [], _, _, _ => rfl
  | t :: rest, seen1, seen2, h => by
    by_cases ht : t ∈ seen1
    · rw [dedupFirstAux, dedupFirstAux, if_pos ht, if_pos ((h t).mp ht)]
      exact dedupFirstAux_congr_seen rest seen1 seen2 h
    · rw [dedupFirstAux, dedupFirstAux, if_neg ht, if_neg (fun hx => ht ((h t).mpr hx))]
      refine congrArg (t :: ·) (dedupFirstAux_congr_seen rest _ _ fun x => ?_)
      simp [h x]

theorem foldl_insert_eq_dedupFirstAux :
    ∀ (l acc : List String),
      l.foldl (fun ks k => if k ∈ ks then ks else ks ++ [k]) acc =
        acc ++ dedupFirstAux acc l
  | [], acc => by simp [dedupFirstAux]
  | k :: rest, acc => by
    by_cases hk : k ∈ acc
    · rw [List.foldl_cons, if_pos hk, dedupFirstAux, if_pos hk]
      exact foldl_insert_eq_dedupFirstAux rest acc
    · rw [List.foldl_cons, if_neg hk, dedupFirstAux, if_neg hk,
        foldl_insert_eq_dedupFirstAux rest (acc ++ [k]),
        dedupFirstAux_congr_seen rest (acc ++ [k]) (k :: acc) (fun x => by
          simp [or_comm])]
      simp

/-- C9 (amended): in the final table built by `main`, the measurement-string
list under each key is duplicate-free and lexicographically sorted, and the
keys appear in first-insertion order: architectures in the program's fixed
loop order `arm, x86, arm64, x86_64` — not sorted by architecture name —
and, within one architecture, versions in resolver order.  (`strLeRel` is
code-point lexicographic order, the order Python's `list.sort()` applies to
strings.) -/
theorem c9_table_keys_and_values (versions : List AndroidVersion)
    (value : String → AndroidVersion → String) :
    (main_result_table versions value).map Prod.fst =
      dedupFirst ((mainArchs.map fun a => versions.map (archKey a)).flatten)
    ∧ ∀ k es, (k, es) ∈ main_result_table versions value →
        List.Sorted strLeRel es ∧ es.Nodup := by
  constructor
  · unfold main_result_table
    rw [outer_fold_keys]
    simpa [dedupFirst] using
      foldl_insert_eq_dedupFirstAux
        ((mainArchs.map fun a => versions.map (archKey a)).flatten) []
  · exact outer_fold_inv value versions mainArchs [] (fun k es h => by simp at h)

/-- C9 witness: with one version (API level 21) and a constant measurement
string, the keys come out in loop order and the single entry list is sorted
and duplicate-free. -/
theorem c9_table_keys_and_values_witness :
    (main_result_table [⟨tagV1, 5, 0, 21⟩]
        (fun _ _ => ("size=4 access_flags=4"))).map Prod.fst =
      ["arm-21", "x86-21", "arm64-21", "x86_64-21"]
    ∧ (List.Sorted strLeRel ["size=4 access_flags=4"]
        ∧ ["size=4 access_flags=4"].Nodup) := by
  have h := c9_table_keys_and_values [⟨tagV1, 5, 0, 21⟩]
    (fun _ _ => ("size=4 access_flags=4"))
  refine ⟨h.1.trans (by decide), h.2 ("arm-21") ["size=4 access_flags=4"] (by decide)⟩

/-- C9 counterexample: with a single version at API level 21 the key
sequence is `arm-21, x86-21, arm64-21, x86_64-21`, which is not sorted by
architecture (lexicographically `arm64-21` precedes `x86-21`), so the
claimed key ordering fails as stated. -/
theorem c9_counterexample :
    (main_result_table [⟨tagV1, 5, 0, 21⟩]
        (fun _ _ => ("size=4 access_flags=4"))).map Prod.fst =
      ["arm-21", "x86-21", "arm64-21", "x86_64-21"]
    ∧ ¬ List.Sorted strLeRel
        ((main_result_table [⟨tagV1, 5, 0, 21⟩]
          (fun _ _ => ("size=4 access_flags=4"))).map Prod.fst) := by
  constructor
  · decide
  · decide

/-! ### Lemmas about the access-control rewrite -/

theorem startsWith_iff : ∀ p s : List Char, startsWith p s = true ↔ ∃ t, s = p ++ t
  | [], s => by simp [startsWith]
  | p :: ps, [] => by
    constructor
    · intro h
      exact absurd h (by simp [startsWith])
    · rintro ⟨t, ht⟩
      exact absurd ht (by simp)
  | p :: ps, c :: cs => by
    simp only [startsWith, Bool.and_eq_true, beq_iff_eq]
    rw [startsWith_iff ps cs]
    constructor
    · rintro ⟨rfl, t, rfl⟩
      exact ⟨t, rfl⟩
    · rintro ⟨t, ht⟩
      injection ht with h1 h2
      exact ⟨h1.symm, t, h2⟩

theorem occurs_iff_containsSub : ∀ pat s : List Char,
    Occurs pat s ↔ containsSub pat s = true
  | pat, [] => by
    constructor
    · rintro ⟨x, y, hxy⟩
      have hp : pat = [] := by
        rcases List.append_eq_nil.mp hxy.symm with ⟨hxp, _⟩
        exact (List.append_eq_nil.mp hxp).2
      subst hp
      simp [containsSub, startsWith]
    · intro h
      have hp : pat = [] := by
        cases pat with
        | nil => rfl
        | cons p ps => simp [containsSub, startsWith] at h
      subst hp
      exact ⟨[], [], rfl⟩
  | pat, c :: rest => by
    rw [show containsSub pat (c :: rest) =
      (startsWith pat (c :: rest) || containsSub pat rest) from rfl]
    rw [Bool.or_eq_true, startsWith_iff, ← occurs_iff_containsSub pat rest]
    constructor
    · rintro ⟨x, y, hxy⟩
      cases x with
      | nil => exact Or.inl ⟨y, by simpa using hxy⟩
      | cons x0 xs =>
        injection hxy with h1 h2
        exact Or.inr ⟨xs, y, h2⟩
    · rintro (⟨t, ht⟩ | ⟨x, y, hxy⟩)
      · exact ⟨[], t, by simpa using ht⟩
      · exact ⟨c :: x, y, by simp [hxy]⟩

theorem not_occurs_of_containsSub (pat s : List Char)
    (h : containsSub pat s = false) : ¬ Occurs pat s := fun ho =>
  absurd ((occurs_iff_containsSub pat s).mp ho) (by simp [h])

theorem append_eq_split : ∀ (a c b d : List Char), a ++ b = c ++ d →
    a.length ≤ c.length → ∃ w, c = a ++ w ∧ b = w ++ d
  | [], c, b, d, h, _ => ⟨c, rfl, h⟩
  | a0 :: as, [], b, d, h, hlen => by simp at hlen
  | a0 :: as, c0 :: cs, b, d, h, hlen => by
    injection h with h1 h2
    have hlen' : as.length ≤ cs.length := by simpa using hlen
    obtain ⟨w, hw1, hw2⟩ := append_eq_split as cs b d h2 hlen'
    exact ⟨w, by simp [h1, hw1], hw2⟩

theorem occurs_append_cases (Q A B : List Char) (h : Occurs Q (A ++ B)) :
    Occurs Q A ∨ Occurs Q B ∨
      ∃ q1 q2, Q = q1 ++ q2 ∧ q1 ≠ [] ∧ q2 ≠ [] ∧
        (∃ x, A = x ++ q1) ∧ (∃ t, B = q2 ++ t) := by
  obtain ⟨x, y, hxy⟩ := h
  have hxy' : A ++ B = x ++ (Q ++ y) := by rw [hxy, List.append_assoc]
  by_cases h1 : x.length + Q.length ≤ A.length
  · left
    obtain ⟨w, hw1, _⟩ := append_eq_split (x ++ Q) A y B hxy.symm
      (by simpa [List.length_append] using h1)
    exact ⟨x, w, hw1⟩
  · by_cases h2 : A.length ≤ x.length
    · right; left
      obtain ⟨w, _, hw2⟩ := append_eq_split A x B (Q ++ y) hxy' h2
      exact ⟨w, y, by rw [hw2, List.append_assoc]⟩
    · right; right
      push_neg at h1 h2
      obtain ⟨q1, hq1, hrest⟩ := append_eq_split x A (Q ++ y) B hxy'.symm (le_of_lt h2)
      have hq1len : A.length = x.length + q1.length := by
        rw [hq1, List.length_append]
      obtain ⟨q2, hq2, hy2⟩ := append_eq_split q1 Q B y hrest.symm (by omega)
      refine ⟨q1, q2, hq2, ?_, ?_, ⟨x, hq1⟩, ⟨y, hy2⟩⟩
      · intro hnil
        rw [hnil] at hq1len
        simp at hq1len
        omega
      · intro hnil
        rw [hnil] at hq2
        have := congrArg List.length hq2
        simp [List.length_append] at this
        omega

theorem replaceList_nil (pat repl : List Char) : replaceList pat repl [] = [] := by
  simp [replaceList]

theorem replaceList_cons_pos (pat repl : List Char) (c : Char) (rest : List Char)
    (h : pat ≠ [] ∧ startsWith pat (c :: rest) = true) :
    replaceList pat repl (c :: rest) =
      repl ++ replaceList pat repl ((c :: rest).drop pat.length) := by
  rw [replaceList]
  exact dif_pos h

theorem replaceList_cons_neg (pat repl : List Char) (c : Char) (rest : List Char)
    (h : ¬ (pat ≠ [] ∧ startsWith pat (c :: rest) = true)) :
    replaceList pat repl (c :: rest) = c :: replaceList pat repl rest := by
  rw [replaceList]
  exact dif_neg h

theorem replaceList_id_of_not_occurs (pat repl : List Char) :
    ∀ s, ¬ Occurs pat s → replaceList pat repl s = s
  | [], _ => replaceList_nil pat repl
  | c :: rest, h => by
    have hm : ¬ (pat ≠ [] ∧ startsWith pat (c :: rest) = true) := by
      rintro ⟨hne, hsw⟩
      obtain ⟨t, ht⟩ := (startsWith_iff pat (c :: rest)).mp hsw
      exact h ⟨[], t, by simpa using ht⟩
    rw [replaceList_cons_neg pat repl c rest hm]
    rw [replaceList_id_of_not_occurs pat repl rest
      (fun ⟨x, y, hxy⟩ => h ⟨c :: x, y, by simp [hxy]⟩)]

theorem replace_keeps_prefixes (pat repl Q : List Char)
    (HA : ∀ q, (∃ x, Q = x ++ q) → q ≠ [] → ¬ ∃ t, repl = q ++ t)
    (HB : ¬ Occurs repl Q) :
    ∀ s q : List Char, (∃ x, Q = x ++ q) → q ≠ [] →
      (∃ t, replaceList pat repl s = q ++ t) → ∃ t, s = q ++ t
  | [], q, hsfx, hne, hpre => by
    obtain ⟨t, ht⟩ := hpre
    rw [replaceList_nil] at ht
    exact absurd (List.append_eq_nil.mp ht.symm).1 hne
  | c :: rest, q, hsfx, hne, hpre => by
    by_cases hm : pat ≠ [] ∧ startsWith pat (c :: rest) = true
    · obtain ⟨t, ht⟩ := hpre
      rw [replaceList_cons_pos pat repl c rest hm] at ht
      rcases le_or_lt q.length repl.length with hlen | hlen
      · obtain ⟨w, hw1, _⟩ := append_eq_split q repl t _ ht.symm hlen
        exact absurd ⟨w, hw1⟩ (HA q hsfx hne)
      · obtain ⟨u, hu1, _⟩ := append_eq_split repl q _ t ht (le_of_lt hlen)
        obtain ⟨x, hx⟩ := hsfx
        exact absurd ⟨x, u, by simp [hx, hu1]⟩ HB
    · obtain ⟨t, ht⟩ := hpre
      rw [replaceList_cons_neg pat repl c rest hm] at ht
      cases q with
      | nil => exact absurd rfl hne
      | cons q0 qs =>
        injection ht with h1 h2
        by_cases hqs : qs = []
        · subst hqs
          exact ⟨rest, by rw [← h1]; rfl⟩
        · have hsfx' : ∃ x, Q = x ++ qs := by
            obtain ⟨x, hx⟩ := hsfx
            exact ⟨x ++ [q0], by rw [hx]; simp⟩
          obtain ⟨t', ht'⟩ := replace_keeps_prefixes pat repl Q HA HB rest qs
            hsfx' hqs ⟨t, h2⟩
          exact ⟨t', by rw [ht', ← h1]; rfl⟩

theorem replace_no_occurs (pat repl Q : List Char)
    (HA : ∀ q, (∃ x, Q = x ++ q) → q ≠ [] → ¬ ∃ t, repl = q ++ t)
    (HB : ¬ Occurs repl Q)
    (HC : ¬ Occurs Q repl)
    (HD : ∀ t, (∃ x, repl = x ++ t) → t ≠ [] → ¬ ∃ u, Q = t ++ u)
    (hpat : pat ≠ []) (hQ2 : 2 ≤ Q.length) :
    ∀ s : List Char, (Q = pat ∨ ¬ Occurs Q s) →
      ¬ Occurs Q (replaceList pat repl s)
  | [], _ => by
    rw [replaceList_nil]
    rintro ⟨x, y, hxy⟩
    have := congrArg List.length hxy
    simp [List.length_append] at this
    omega
  | c :: rest, hside => by
    intro hocc
    by_cases hm : pat ≠ [] ∧ startsWith pat (c :: rest) = true
    · rw [replaceList_cons_pos pat repl c rest hm] at hocc
      rcases occurs_append_cases Q repl _ hocc with h | h |
        ⟨q1, q2, hQ, hq1ne, hq2ne, ⟨x, hx⟩, ⟨t, htB⟩⟩
      · exact HC h
      · have hside' : Q = pat ∨ ¬ Occurs Q ((c :: rest).drop pat.length) := by
          rcases hside with h' | h'
          · exact Or.inl h'
          · refine Or.inr fun ⟨u, w, huw⟩ => h' ?_
            obtain ⟨tt, htt⟩ := (startsWith_iff pat (c :: rest)).mp hm.2
            have hdrop : (c :: rest).drop pat.length = tt := by
              rw [htt]
              exact List.drop_left pat tt
            rw [hdrop] at huw
            exact ⟨pat ++ u, w, by rw [htt, huw]; simp⟩
        exact replace_no_occurs pat repl Q HA HB HC HD hpat hQ2 _ hside' h
      · exact HD q1 ⟨x, hx⟩ hq1ne ⟨q2, hQ⟩
    · rw [replaceList_cons_neg pat repl c rest hm] at hocc
      rcases occurs_append_cases Q [c] _
          (show Occurs Q ([c] ++ replaceList pat repl rest) from hocc) with h | h |
        ⟨q1, q2, hQ, hq1ne, hq2ne, ⟨x, hx⟩, ⟨t, htB⟩⟩
      · obtain ⟨u, w, huw⟩ := h
        exfalso
        have hlen := congrArg List.length huw
        simp only [List.length_append, List.length_cons, List.length_nil] at hlen
        omega
      · have hside' : Q = pat ∨ ¬ Occurs Q rest := by
          rcases hside with h' | h'
          · exact Or.inl h'
          · exact Or.inr fun ⟨u, w, huw⟩ => h' ⟨c :: u, w, by simp [huw]⟩
        exact replace_no_occurs pat repl Q HA HB HC HD hpat hQ2 rest hside' h
      · have hq1 : q1 = [c] := by
          cases x with
          | nil => simpa using hx.symm
          | cons x0 xs =>
            exfalso
            have hlen := congrArg List.length hx
            simp only [List.length_append, List.length_cons, List.length_nil] at hlen
            have hq1p : 0 < q1.length := List.length_pos.mpr hq1ne
            omega
        subst hq1
        obtain ⟨t2, ht2⟩ := replace_keeps_prefixes pat repl Q HA HB rest q2
          ⟨[c], hQ⟩ hq2ne ⟨t, htB⟩
        have hQs : c :: rest = Q ++ t2 := by
          rw [hQ, ht2]
          simp
        rcases hside with h' | h'
        · apply hm
          refine ⟨hpat, (startsWith_iff pat (c :: rest)).mpr ?_⟩
          exact ⟨t2, by rw [← h']; exact hQs⟩
        · exact h' ⟨[], t2, by simpa using hQs⟩
termination_by s hside => s.length
decreasing_by
  · simp only [List.length_drop, List.length_cons]
    have hp := List.length_pos.mpr hm.1
    omega
  · simp only [List.length_cons]
    omega

theorem mem_allSuffixes : ∀ Q q : List Char, q ∈ allSuffixes Q ↔ ∃ x, Q = x ++ q
  | [], q => by
    simp only [allSuffixes, List.mem_singleton]
    constructor
    · rintro rfl
      exact ⟨[], rfl⟩
    · rintro ⟨x, hx⟩
      exact (List.append_eq_nil.mp hx.symm).2
  | c :: rest, q => by
    simp only [allSuffixes, List.mem_cons, mem_allSuffixes rest q]
    constructor
    · rintro (rfl | ⟨x, hx⟩)
      · exact ⟨[], rfl⟩
      · exact ⟨c :: x, by simp [hx]⟩
    · rintro ⟨x, hx⟩
      cases x with
      | nil => exact Or.inl (by simpa using hx.symm)
      | cons x0 xs =>
        injection hx with h1 h2
        exact Or.inr ⟨xs, h2⟩

theorem noNESuffixPrefix_spec (Q R : List Char) (h : noNESuffixPrefix Q R = true) :
    ∀ q, (∃ x, Q = x ++ q) → q ≠ [] → ¬ ∃ t, R = q ++ t := by
  rintro q hsfx hne ⟨t, ht⟩
  have hq := (mem_allSuffixes Q q).mpr hsfx
  have hall := List.all_eq_true.mp h q hq
  have hsw : startsWith q R = true := (startsWith_iff q R).mpr ⟨t, ht⟩
  cases q with
  | nil => exact hne rfl
  | cons q0 qs => simp [hsw] at hall

theorem no_prot_after_prot_replace (d : List Char) :
    ¬ Occurs ("protected:".toList)
      (replaceList ("protected:".toList) ("public:".toList) d) :=
  replace_no_occurs _ _ _
    (noNESuffixPrefix_spec _ _ (by decide))
    (not_occurs_of_containsSub _ _ (by decide))
    (not_occurs_of_containsSub _ _ (by decide))
    (noNESuffixPrefix_spec _ _ (by decide))
    (by decide) (by decide) d (Or.inl rfl)

theorem no_priv_after_priv_replace (d : List Char) :
    ¬ Occurs ("private:".toList)
      (replaceList ("private:".toList) ("public:".toList) d) :=
  replace_no_occurs _ _ _
    (noNESuffixPrefix_spec _ _ (by decide))
    (not_occurs_of_containsSub _ _ (by decide))
    (not_occurs_of_containsSub _ _ (by decide))
    (noNESuffixPrefix_spec _ _ (by decide))
    (by decide) (by decide) d (Or.inl rfl)

theorem no_prot_after_priv_replace (d : List Char)
    (h : ¬ Occurs ("protected:".toList) d) :
    ¬ Occurs ("protected:".toList)
      (replaceList ("private:".toList) ("public:".toList) d) :=
  replace_no_occurs _ _ _
    (noNESuffixPrefix_spec _ _ (by decide))
    (not_occurs_of_containsSub _ _ (by decide))
    (not_occurs_of_containsSub _ _ (by decide))
    (noNESuffixPrefix_spec _ _ (by decide))
    (by decide) (by decide) d (Or.inr h)

/-- C8: the access-control rewrite applied to the target header (replacing
every occurrence of `protected:` and `private:` with `public:`) is
idempotent: applying it a second time to an already-rewritten header text
leaves the text unchanged. -/
theorem c8_rewrite_idempotent (header_source : String) :
    rewriteAccess (rewriteAccess header_source) = rewriteAccess header_source := by
  show String.mk
      (replaceList ("private:".toList) ("public:".toList)
        (replaceList ("protected:".toList) ("public:".toList)
          (replaceList ("private:".toList) ("public:".toList)
            (replaceList ("protected:".toList) ("public:".toList)
              header_source.toList)))) =
    String.mk
      (replaceList ("private:".toList) ("public:".toList)
        (replaceList ("protected:".toList) ("public:".toList)
          header_source.toList))
  apply congrArg
  rw [replaceList_id_of_not_occurs _ _ _
    (no_prot_after_priv_replace _ (no_prot_after_prot_replace _))]
  exact replaceList_id_of_not_occurs _ _ _ (no_priv_after_priv_replace _)

end Probe
